import Mathlib

/-!
Verification of the agent-registry / versioned-feature-store core of the
repository.  The Python modules `src/ai_self_improvement/feature_writer.py`,
`src/core/agent_registry.py` and `src/core/agent_manager.py` are shallowly
embedded below: pure computations become Lean functions, the file store and
the in-memory registries become explicit state values, fallible Python
operations return `Except`/`Option`, and Python numbers are modelled as
exact rationals.
-/

/-! ### Python string primitives used by the feature writer -/

/-- Scan of a character list for the two-character separator `"_v"`:
models Python `s.split('_v')`, splitting at leftmost non-overlapping
occurrences.  The result is always nonempty. -/
def pySplitV : List Char → List (List Char)
  | [] => [[]]
  | '_' :: 'v' :: rest => [] :: pySplitV rest
  | c :: rest =>
    match pySplitV rest with
    | [] => [[c]]
    | h :: t => (c :: h) :: t

/-- Models the Python containment test `'_v' in s`. -/
def hasVSep : List Char → Bool
  | [] => false
  | '_' :: 'v' :: _ => true
  | _ :: rest => hasVSep rest

/-- Models Python `s.split('_v')[0]` (text before the first `'_v'`). -/
def splitBase (s : String) : String := String.mk ((pySplitV s.data).headD [])

/-- Models Python `s.split('_v')[-1]` (text after the last `'_v'`). -/
def splitLastV (s : String) : String := String.mk ((pySplitV s.data).getLastD s.data)

/-- Models Python `s[:-n]` (drop the last `n` characters, empty when short). -/
def pyDropRight (s : String) (n : Nat) : String :=
  String.mk (s.data.take (s.data.length - n))

/-- Models Python `p.startswith(q)` via the underlying character lists. -/
def pyStartsWith (s p : String) : Bool := p.data.isPrefixOf s.data

/-- Models Python `s.endswith(q)` via the underlying character lists. -/
def pyEndsWith (s p : String) : Bool := p.data.isSuffixOf s.data

/-- Value of a nonempty all-digit character list, `none` otherwise. -/
def digitsVal? (cs : List Char) : Option Nat :=
  if cs ≠ [] ∧ cs.all Char.isDigit then
    some (cs.foldl (fun acc c => acc * 10 + (c.toNat - '0'.toNat)) 0)
  else none

/-- Models Python `int(s)` on a string: optional surrounding whitespace,
optional sign, then a nonempty digit run; `none` models the `ValueError`
raised otherwise.  (Underscore digit grouping, accepted by CPython, is not
modelled: no name the store ever produces or the claims mention uses it.) -/
def pyInt? (s : String) : Option Int :=
  let t := (s.data.dropWhile Char.isWhitespace).reverse.dropWhile Char.isWhitespace |>.reverse
  match t with
  | '-' :: ds => (digitsVal? ds).map (fun n => -(n : Int))
  | '+' :: ds => (digitsVal? ds).map (fun n => (n : Int))
  | ds => (digitsVal? ds).map (fun n => (n : Int))

/-! ### Version store: `_cleanup_old_versions` and `write_feature`

The store state is the list of file names in the plugin directory, in
creation order (the model's fixed enumeration order for `os.listdir`).
File contents are not modelled: no operation of the embedded core ever
reads them back (loading is abstracted by a loader function below). -/

/-- Sort key of `_cleanup_old_versions`, for one file name:
`int(x.split('_v')[-1][:-3]) if '_v' in x else 0`.  An `Except.error`
models the `ValueError` that `int` raises on a malformed suffix. -/
def cleanupKey (x : String) : Except Unit Int :=
  if hasVSep x.data then
    match pyInt? (pyDropRight (splitLastV x) 3) with
    | some n => Except.ok n
    | none => Except.error ()
  else Except.ok 0

/-- Candidate list of `_cleanup_old_versions`:
`[f for f in os.listdir(self.plugin_dir) if f.startswith(prefix) and f.endswith('.py')]`. -/
def listVersionCandidates (files : List String) (base : String) : List String :=
  files.filter (fun f => pyStartsWith f base && pyEndsWith f ".py")

/-- Key comparison used to sort version candidates (compare parsed keys). -/
def keyLe (a b : String × Int) : Prop := a.2 ≤ b.2

instance : DecidableRel keyLe := fun a b => inferInstanceAs (Decidable (a.2 ≤ b.2))

instance : IsTotal (String × Int) keyLe := ⟨fun a b => Int.le_total a.2 b.2⟩

instance : IsTrans (String × Int) keyLe := ⟨fun _ _ _ h h' => le_trans h h'⟩

/-- Key-computation traversal of `sorted`: every key is computed left to
right and the first failure (a raised `ValueError`) wins. -/
def exMapKey {α β : Type} (f : α → Except Unit β) : List α → Except Unit (List β)
  | [] => Except.ok []
  | a :: rest =>
    match f a with
    | Except.error e => Except.error e
    | Except.ok b => (exMapKey f rest).map (fun bs => b :: bs)

/-- Models `sorted(candidates, key=...)`: every key is computed (first
failure models the propagated `ValueError`), then the list is sorted by
key.  Python's Timsort is stable; with a stable sort the result is unique,
and `List.insertionSort` is stable, so it is a faithful model. -/
def sortedVersions (fs : List String) : Except Unit (List String) := do
  let keyed ← exMapKey (fun f => (cleanupKey f).map (fun k => (f, k))) fs
  Except.ok ((List.insertionSort keyLe keyed).map Prod.fst)

/-- Models `AdvancedFeatureWriter._cleanup_old_versions`: list the `.py`
files sharing the feature's base, sort them by parsed version
number ascending, and when more than `maxVersions` remain delete the
oldest surplus (`versions[:-max_versions]`).  Deletions themselves are
modelled as always succeeding (`os.remove` failures are caught and only
logged by the source); a key-computation failure aborts with an error. -/
def cleanup_old_versions (maxVersions : Nat) (files : List String)
    (feature_name : String) : Except Unit (List String) := do
  let base := splitBase feature_name
  let versions ← sortedVersions (listVersionCandidates files base)
  if versions.length > maxVersions then
    let toDelete := versions.take (versions.length - maxVersions)
    Except.ok (files.filter (fun f => !toDelete.contains f))
  else
    Except.ok files

/-- Models `AdvancedFeatureWriter.write_feature`: create (or overwrite)
`<feature_name>.py`, then run cleanup; any exception escaping cleanup is
caught and turned into a `False` result, with the freshly written file
left in place.  The code text argument of the source is not modelled,
since no modelled operation reads stored bytes. -/
def write_feature (maxVersions : Nat) (files : List String)
    (feature_name : String) : Bool × List String :=
  let fname := feature_name ++ ".py"
  let files₁ := if fname ∈ files then files else files ++ [fname]
  match cleanup_old_versions maxVersions files₁ feature_name with
  | Except.ok files₂ => (true, files₂)
  | Except.error _ => (false, files₁)

deriving instance DecidableEq for Except

/-! ### Evaluation data and performance assessment -/

/-- A Python value found in a trade-record field: either a number
(modelled exactly as a rational) or some non-numeric object, on which
arithmetic and order comparisons raise `TypeError`. -/
inductive PyVal where
  | num (q : ℚ)
  | other
deriving DecidableEq

/-- A trade record: a loosely-typed mapping of which the embedded code
only ever reads the `profit` and `expected_return` fields (via `.get`
with default `0`); `none` models an absent key. -/
structure TradeRecord where
  profit : Option PyVal := none
  expected_return : Option PyVal := none
deriving DecidableEq

/-- Models `trade.get('profit', 0)`. -/
def getProfit (t : TradeRecord) : PyVal := t.profit.getD (PyVal.num 0)

/-- Models `trade.get('expected_return', 0)`. -/
def getExpectedReturn (t : TradeRecord) : PyVal := t.expected_return.getD (PyVal.num 0)

/-- Left-fold accumulator of Python `sum`: adding a non-numeric value
raises `TypeError`, modelled as `Except.error`. -/
def pySumGo (acc : ℚ) : List PyVal → Except Unit ℚ
  | [] => Except.ok acc
  | PyVal.num q :: rest => pySumGo (acc + q) rest
  | PyVal.other :: _ => Except.error ()

/-- Models Python `sum` over the profit values. -/
def pySum (l : List PyVal) : Except Unit ℚ := pySumGo 0 l

/-- Accumulator of the success count. -/
def pyCountPosGo (acc : Nat) : List PyVal → Except Unit Nat
  | [] => Except.ok acc
  | PyVal.num q :: rest => pyCountPosGo (if 0 < q then acc + 1 else acc) rest
  | PyVal.other :: _ => Except.error ()

/-- Models `len([t for t in results if t.get('profit', 0) > 0])`:
comparing a non-numeric value with `0` raises `TypeError`. -/
def pyCountPos (l : List PyVal) : Except Unit Nat := pyCountPosGo 0 l

/-- List-comprehension combinator over fallible element computations
(left to right, first failure wins), used to model the running-balance
comprehensions. -/
def exMap {α β : Type} (f : α → Except Unit β) : List α → Except Unit (List β)
  | [] => Except.ok []
  | a :: rest =>
    match f a with
    | Except.error e => Except.error e
    | Except.ok b => (exMap f rest).map (fun bs => b :: bs)

/-- Models Python `min` over a nonempty list of numbers (`0` is never
used: the caller guards the empty case). -/
def pyMin : List ℚ → ℚ
  | [] => 0
  | h :: t => t.foldl min h

/-- The performance summary produced by `assess_performance`. -/
structure Perf where
  profitability : ℚ
  success_rate : ℚ
  max_drawdown : ℚ
deriving DecidableEq

/-- Models `AdvancedFeatureWriter.assess_performance`.  Mirrors the
source statement by statement, including the duplicated running-balance
computation; the `except ZeroDivisionError` handler of the source is
unreachable (the divisor is the length of a nonempty list) and therefore
has no counterpart. -/
def assess_performance (results : List TradeRecord) : Except Unit Perf :=
  if results.isEmpty then Except.ok ⟨0, 0, 0⟩
  else do
    let profitability ← pySum (results.map getProfit)
    let successes ← pyCountPos (results.map getProfit)
    let success_rate : ℚ := (successes : ℚ) / (results.length : ℚ)
    let running_balance ← exMap
      (fun i => pySum ((results.take (i + 1)).map getProfit)) (List.range results.length)
    let _max_drawdown := if running_balance.isEmpty then (0 : ℚ) else pyMin running_balance
    let cumulative_profits ← exMap
      (fun i => pySum ((results.take (i + 1)).map getProfit)) (List.range results.length)
    let max_drawdown := if cumulative_profits.isEmpty then (0 : ℚ) else pyMin cumulative_profits
    Except.ok ⟨profitability, success_rate, max_drawdown⟩

/-! ### Dynamic loading and evaluation -/

/-- Possible outcomes of invoking a loaded module's `new_strategy`. -/
inductive StrategyOutcome where
  | raises
  | nonList
  | ok (results : List TradeRecord)
deriving DecidableEq

/-- A loaded feature module: its runtime name and, when the attribute
exists, its `new_strategy` entry point (an opaque function abstracting
the dynamically executed code). -/
structure PyModule where
  name : String
  strategy : Option (List TradeRecord → StrategyOutcome)

/-- A stored performance record (the `content_hash` and `timestamp`
fields of the source are opaque to every claim and are not modelled). -/
structure PerfEntry where
  performance : Perf
  execution_time : ℚ
deriving DecidableEq

/-- Models Python dict insertion (replace in place, else append). -/
def pyDictInsert {α : Type} : List (String × α) → String → α → List (String × α)
  | [], k, v => [(k, v)]
  | (k', v') :: rest, k, v =>
    if k' = k then (k, v) :: rest else (k', v') :: pyDictInsert rest k v

/-- Models Python dict lookup (`d.get(k)`), first match. -/
def pyLookup {α : Type} : List (String × α) → String → Option α
  | [], _ => none
  | (k', v) :: rest, k => if k' = k then some v else pyLookup rest k

/-- The mutable state of an `AdvancedFeatureWriter`: retention bound,
plugin-directory contents, and the in-memory performance-record map. -/
structure WriterState where
  max_versions : Nat
  files : List String
  performance_records : List (String × PerfEntry)
deriving DecidableEq

/-- Models `AdvancedFeatureWriter.load_feature`: `none` when the file is
absent or the dynamic import fails; the import itself is abstracted by
the ambient `loader` function. -/
def load_feature (w : WriterState) (loader : String → Option PyModule)
    (feature_name : String) : Option PyModule :=
  if (feature_name ++ ".py") ∈ w.files then loader feature_name else none

/-- Models `AdvancedFeatureWriter.evaluate_feature`.  Wall-clock timing
is abstracted by the ambient `et` value.  Any fault — missing
`new_strategy`, the strategy raising, a non-list result, or a
`TypeError` inside `assess_performance` — is caught and yields
`(none, none)` with the state unchanged. -/
def evaluate_feature (w : WriterState) (m : PyModule)
    (eval_data : List TradeRecord) (et : ℚ) :
    (Option Perf × Option ℚ) × WriterState :=
  match m.strategy with
  | none => ((none, none), w)
  | some f =>
    match f eval_data with
    | StrategyOutcome.raises => ((none, none), w)
    | StrategyOutcome.nonList => ((none, none), w)
    | StrategyOutcome.ok results =>
      match assess_performance results with
      | Except.error _ => ((none, none), w)
      | Except.ok perf =>
        ((some perf, some et),
         { w with performance_records :=
             pyDictInsert w.performance_records m.name ⟨perf, et⟩ })

/-! ### Self-improvement -/

/-- Models `AdvancedFeatureWriter.generate_improved_feature` reduced to
its two numeric decisions: the profit factor (`1.1` when recorded
profitability was negative, else `1.0`) and the risk factor (`0.9` when
recorded max drawdown was below `-500`, else `1.0`).  These two numbers
fully determine the synthesized code body. -/
def generate_improved_feature (previous : Perf) : ℚ × ℚ :=
  (if previous.profitability < 0 then 11/10 else 1,
   if previous.max_drawdown < -500 then 9/10 else 1)

/-- Denotation of the code body synthesized by
`generate_improved_feature`: for each input record it reads
`expected_return` (default `0`), multiplies by both factors (raising
`TypeError` on a non-numeric value), and emits
`{'profit': product, 'expected_return': base}`. -/
def improvedStrategy (pf rf : ℚ) : List TradeRecord → Except Unit (List TradeRecord)
  | [] => Except.ok []
  | t :: rest =>
    match getExpectedReturn t with
    | PyVal.num q =>
      (improvedStrategy pf rf rest).map
        (fun rs => { profit := some (PyVal.num (q * pf * rf)),
                     expected_return := some (PyVal.num q) } :: rs)
    | PyVal.other => Except.error ()

/-- Models `AdvancedFeatureWriter.self_improve`.  `loader` abstracts the
dynamic import, `now` is `int(time.time())` at the call, `et` the
measured evaluation wall-clock time.  The comparison against the
threshold table `{'profitability': 0, 'success_rate': 0.6,
'max_drawdown': -1000}` is inlined: all three keys are always present in
an `assess_performance` result, so the `float('inf')` defaults of the
source are dead. -/
def self_improve (loader : String → Option PyModule) (now : Nat) (et : ℚ)
    (w : WriterState) (feature_name : String) (eval_data : List TradeRecord) :
    Option String × WriterState :=
  match load_feature w loader feature_name with
  | none => (none, w)
  | some m =>
    match evaluate_feature w m eval_data et with
    | ((none, _), w₁) => (none, w₁)
    | ((some perf, _), w₁) =>
      if perf.profitability < 0 ∨ perf.success_rate < 3/5 ∨ perf.max_drawdown < -1000 then
        let new_feature_name := feature_name ++ "_v" ++ toString now
        match write_feature w₁.max_versions w₁.files new_feature_name with
        | (true, files') => (some new_feature_name, { w₁ with files := files' })
        | (false, files') => (none, { w₁ with files := files' })
      else (none, w₁)

/-! ### Agent registry (`src/core/agent_registry.py`) -/

/-- A Python object as seen by the registry plumbing: a dict, a string,
or a callable (an agent class, identified by a tag).  Calling a dict or
a string raises `TypeError`. -/
inductive PyObj where
  | dict (entries : List (String × PyObj))
  | str (s : String)
  | callable (tag : String)

/-- A thread handle is opaque; only the name of the agent it runs is
retained. -/
structure PyThread where
  target : String
deriving DecidableEq

/-- The module-level registry state: `AGENT_REGISTRY` (name to the dict
`{"class": cls, "metadata": md}`), `AGENT_STATUS`, and
`AGENT_THREADS`. -/
structure RegistryState where
  AGENT_REGISTRY : List (String × PyObj)
  AGENT_STATUS : List (String × String)
  AGENT_THREADS : List (String × PyThread)

/-- Models `d.get(key, default)` on a `PyObj` known to be a dict. -/
def pyObjGetD (o : PyObj) (key : String) (dflt : PyObj) : PyObj :=
  match o with
  | PyObj.dict es => (pyLookup es key).getD dflt
  | _ => dflt

/-- Models `register_agent(agent_name, **metadata)` applied to a class:
stores `{"class": cls, "metadata": metadata or {}}` and marks the agent
stopped. -/
def register_agent (st : RegistryState) (agent_name : String) (cls : String)
    (metadata : List (String × PyObj)) : RegistryState :=
  { st with
    AGENT_REGISTRY := pyDictInsert st.AGENT_REGISTRY agent_name
      (PyObj.dict [("class", PyObj.callable cls), ("metadata", PyObj.dict metadata)]),
    AGENT_STATUS := pyDictInsert st.AGENT_STATUS agent_name "stopped" }

/-- Models `get_registered_agents()`: for every registered name, a fresh
dict `{"status": AGENT_STATUS.get(name, "unknown"), "metadata":
AGENT_REGISTRY[name].get("metadata", {})}` — never the class. -/
def get_registered_agents (st : RegistryState) : List (String × PyObj) :=
  st.AGENT_REGISTRY.map (fun p =>
    (p.1, PyObj.dict
      [("status", PyObj.str ((pyLookup st.AGENT_STATUS p.1).getD "unknown")),
       ("metadata", pyObjGetD p.2 "metadata" (PyObj.dict []))]))

/-- Models Python truthiness of the objects above (`if not agent_class`). -/
def pyTruthy : PyObj → Bool
  | PyObj.dict es => !es.isEmpty
  | PyObj.str s => !s.isEmpty
  | PyObj.callable _ => true

/-- An exception escaping `AgentManager.start_agent`. -/
inductive PyError where
  | typeError (msg : String)
  | valueError (msg : String)
deriving DecidableEq

/-- Models the call `agent_class(**kwargs)`: constructing from a class
succeeds (the instance is opaque); calling a dict or a string raises
`TypeError`. -/
def pyCallCtor (o : PyObj) (_kwargs : List (String × PyObj)) : Except PyError PyObj :=
  match o with
  | PyObj.callable tag => Except.ok (PyObj.str ("<instance of " ++ tag ++ ">"))
  | PyObj.dict _ => Except.error (PyError.typeError "'dict' object is not callable")
  | PyObj.str _ => Except.error (PyError.typeError "'str' object is not callable")

/-! ### Agent manager (`src/core/agent_manager.py`) -/

/-- The `AgentManager` instance state: tracked instances and threads. -/
structure ManagerState where
  instances : List (String × PyObj)
  threads : List (String × PyThread)

/-- Models `AgentManager.start_agent`: snapshot the registry through
`get_registered_agents`, look the id up there, raise `ValueError` when
the value is falsy or absent, otherwise call it as a constructor, record
the instance/thread pair and start the daemon thread. -/
def start_agent (reg : RegistryState) (mgr : ManagerState) (agent_id : String)
    (kwargs : List (String × PyObj)) : Except PyError (String × ManagerState) :=
  let agents := get_registered_agents reg
  match pyLookup agents agent_id with
  | none => Except.error (PyError.valueError ("Agent '" ++ agent_id ++ "' not registered."))
  | some agent_class =>
    if pyTruthy agent_class then
      match pyCallCtor agent_class kwargs with
      | Except.error e => Except.error e
      | Except.ok inst =>
        Except.ok ("Agent " ++ agent_id ++ " started.",
          { instances := pyDictInsert mgr.instances agent_id inst,
            threads := pyDictInsert mgr.threads agent_id ⟨agent_id⟩ })
    else Except.error (PyError.valueError ("Agent '" ++ agent_id ++ "' not registered."))

/-- Models the `start` branch of `control_agent` on a registered name
(also reached by `restart`): report when already running, otherwise
spawn the runner thread, record it, and mark the agent running.  The
spawned `_run_agent` body runs concurrently and is not modelled; only
the bookkeeping visible to the caller is. -/
def control_agent_start (st : RegistryState) (name : String) : String × RegistryState :=
  if pyLookup st.AGENT_STATUS name = some "running" then
    ("Agent '" ++ name ++ "' already running.", st)
  else
    ("Agent '" ++ name ++ "' started.",
     { st with
       AGENT_THREADS := pyDictInsert st.AGENT_THREADS name ⟨name⟩,
       AGENT_STATUS := pyDictInsert st.AGENT_STATUS name "running" })

/-- Models `control_agent(name, action)`.  The unknown name test comes
first; `restart` sets the status to stopped and then performs the start
branch (the source makes a direct recursive call with action
`"start"`).  Every branch returns a result string; the enclosing
`try/except` of the source is unreachable in the model since all
modelled operations are total. -/
def control_agent (st : RegistryState) (name action : String) : String × RegistryState :=
  if (pyLookup st.AGENT_REGISTRY name).isNone then
    ("Agent '" ++ name ++ "' not found.", st)
  else
    let action := action.trim.toLower
    if action = "start" then control_agent_start st name
    else if action = "stop" then
      ("Agent '" ++ name ++ "' marked as stopped (manual stop required).",
       { st with AGENT_STATUS := pyDictInsert st.AGENT_STATUS name "stopped" })
    else if action = "restart" then
      control_agent_start { st with AGENT_STATUS := pyDictInsert st.AGENT_STATUS name "stopped" } name
    else
      ("Unknown action '" ++ action ++ "'.", st)

/-! ### Theorems -/

/-- Helper: a concrete one-agent registry (agent `echo` registered). -/
def regEcho : RegistryState :=
  register_agent ⟨[], [], []⟩ "echo" "EchoAgent" [("description", PyObj.str "Echo agent")]

/-- C1: `AgentManager.start_agent` never reaches the claimed happy path:
the registry snapshot returned by `get_registered_agents` maps each name
to the `{status, metadata}` dict and never to the class, so for a
registered id the attempted construction raises `TypeError` (the dict is
not callable) instead of constructing an instance and spawning a daemon
thread; for an unregistered id it raises the descriptive `ValueError`. -/
theorem start_agent_treats_snapshot_as_constructor :
    start_agent regEcho ⟨[], []⟩ "echo" [] =
      Except.error (PyError.typeError "'dict' object is not callable") ∧
    start_agent regEcho ⟨[], []⟩ "ghost" [] =
      Except.error (PyError.valueError "Agent 'ghost' not registered.") :=
  ⟨rfl, rfl⟩

/-- C8: `control_agent` on a name absent from `AGENT_REGISTRY` returns
the not-found string for every action and leaves the whole registry
state (descriptor, status and thread maps) unchanged. -/
theorem control_agent_missing_frame (st : RegistryState) (name action : String)
    (h : pyLookup st.AGENT_REGISTRY name = none) :
    control_agent st name action = ("Agent '" ++ name ++ "' not found.", st) := by
  unfold control_agent
  rw [h]
  rfl

/-- Witness for C8 at the empty registry and name `ghost`. -/
theorem control_agent_missing_frame_witness :
    control_agent ⟨[], [], []⟩ "ghost" "start" = ("Agent 'ghost' not found.", ⟨[], [], []⟩) :=
  control_agent_missing_frame ⟨[], [], []⟩ "ghost" "start" rfl

/-- C9: cleanup selects deletion candidates purely by file-name text:
the base is the text before the first `'_v'` of the written feature
name, and every stored `.py` file starting with that base is a
candidate, so a write of feature `foo_v10` deletes the unrelated stored
feature `foobar.py` (its name begins with base `foo` and parses as
version `0`, older than `10`). -/
theorem cleanup_prefix_cross_feature :
    write_feature 1 ["foobar.py"] "foo_v10" = (true, ["foo_v10.py"]) ∧
    splitBase "foo_v10" = "foo" ∧
    pyStartsWith "foobar.py" (splitBase "foo_v10") = true ∧
    listVersionCandidates ["foobar.py", "foo_v10.py"] (splitBase "foo_v10") =
      ["foobar.py", "foo_v10.py"] :=
  ⟨by decide, by decide, by decide, by decide⟩

/-- C10: when the fresh artifact file is created but the subsequent
cleanup raises, `write_feature` reports failure while the new file
remains in the store. -/
theorem write_feature_false_but_persisted (maxV : Nat) (files : List String)
    (name : String)
    (h : cleanup_old_versions maxV
      (if name ++ ".py" ∈ files then files else files ++ [name ++ ".py"]) name =
      Except.error ()) :
    (write_feature maxV files name).1 = false ∧
    (name ++ ".py") ∈ (write_feature maxV files name).2 := by
  unfold write_feature
  dsimp only
  rw [h]
  refine ⟨rfl, ?_⟩
  by_cases hmem : name ++ ".py" ∈ files
  · simp [hmem]
  · simp [hmem]

/-- Witness for C10: writing `foo` beside the malformed `foo_vabc.py`
fails (cleanup raises) yet `foo.py` is on disk afterwards. -/
theorem write_feature_false_but_persisted_witness :
    (write_feature 5 ["foo_vabc.py"] "foo").1 = false ∧
    "foo.py" ∈ (write_feature 5 ["foo_vabc.py"] "foo").2 :=
  write_feature_false_but_persisted 5 ["foo_vabc.py"] "foo" rfl

/-- C4 counterexample: the sort key computation is not total — on a file
name with a non-numeric suffix after `'_v'` it raises (`int('abc')`),
and the raise propagates out of the cleanup pass instead of the name
being treated as version `0`. -/
theorem cleanup_key_malformed_cex :
    cleanupKey "foo_vabc.py" = Except.error () ∧
    cleanup_old_versions 5 ["foo.py", "foo_vabc.py"] "foo" = Except.error () :=
  ⟨rfl, rfl⟩

/-- C4 amended: the key computation tolerates only a missing `'_v'`
separator (such names sort as version `0`); a present but malformed
numeric suffix after the last `'_v'` makes the key computation — and
hence cleanup — raise. -/
theorem cleanup_key_amended (x y : String)
    (hx : hasVSep x.data = false)
    (hy : hasVSep y.data = true)
    (hy' : pyInt? (pyDropRight (splitLastV y) 3) = none) :
    cleanupKey x = Except.ok 0 ∧ cleanupKey y = Except.error () := by
  constructor
  · simp [cleanupKey, hx]
  · simp [cleanupKey, hy, hy']

/-- Witness for the amended C4 at `foo.py` (no separator, key `0`) and
`foo_vabc.py` (malformed suffix, raises). -/
theorem cleanup_key_amended_witness :
    cleanupKey "foo.py" = Except.ok 0 ∧ cleanupKey "foo_vabc.py" = Except.error () :=
  cleanup_key_amended "foo.py" "foo_vabc.py" (by decide) (by decide) (by decide)

/-- Numeric content of a `PyVal` (`0` for the non-numeric case, which the
hypotheses of the theorems below exclude). -/
def pyValQ : PyVal → ℚ
  | PyVal.num q => q
  | PyVal.other => 0

/-- Profit of one record as a rational. -/
def profitVal (t : TradeRecord) : ℚ := pyValQ (getProfit t)

/-- Expected return of one record as a rational. -/
def erVal (t : TradeRecord) : ℚ := pyValQ (getExpectedReturn t)

/-- The prefix-sum sequence of a list of rationals. -/
def prefixSums (l : List ℚ) : List ℚ :=
  (List.range l.length).map (fun i => (l.take (i + 1)).sum)

/-- A value list is numeric when every element is a `PyVal.num`. -/
def allNum (l : List PyVal) : Prop := ∀ v ∈ l, ∃ q, v = PyVal.num q


theorem pySumGo_ok (l : List PyVal) (h : allNum l) (acc : ℚ) :
    pySumGo acc l = Except.ok (acc + (l.map pyValQ).sum) := by
  induction l generalizing acc with
  | nil => simp [pySumGo]
  | cons v rest ih =>
    obtain ⟨q, rfl⟩ := h v (List.mem_cons_self v rest)
    have hrest : allNum rest := fun u hu => h u (List.mem_cons_of_mem _ hu)
    simp [pySumGo, ih hrest, pyValQ, add_assoc]

theorem pySum_ok (l : List PyVal) (h : allNum l) :
    pySum l = Except.ok (l.map pyValQ).sum := by
  simpa [pySum] using pySumGo_ok l h 0

theorem pyCountPosGo_ok (l : List PyVal) (h : allNum l) (acc : Nat) :
    pyCountPosGo acc l = Except.ok (acc + l.countP (fun v => decide (0 < pyValQ v))) := by
  induction l generalizing acc with
  | nil => simp [pyCountPosGo]
  | cons v rest ih =>
    obtain ⟨q, rfl⟩ := h v (List.mem_cons_self v rest)
    have hrest : allNum rest := fun u hu => h u (List.mem_cons_of_mem _ hu)
    by_cases hq : 0 < q
    · simp [pyCountPosGo, hq, ih hrest, pyValQ, List.countP_cons, add_comm, add_assoc,
        add_left_comm]
    · simp [pyCountPosGo, hq, ih hrest, pyValQ, List.countP_cons]

theorem pyCountPos_ok (l : List PyVal) (h : allNum l) :
    pyCountPos l = Except.ok (l.countP (fun v => decide (0 < pyValQ v))) := by
  simpa [pyCountPos] using pyCountPosGo_ok l h 0

theorem exMap_ok {α β : Type} (f : α → Except Unit β) (g : α → β) (l : List α)
    (h : ∀ a ∈ l, f a = Except.ok (g a)) :
    exMap f l = Except.ok (l.map g) := by
  induction l with
  | nil => simp [exMap]
  | cons a rest ih =>
    have ha := h a (List.mem_cons_self a rest)
    have hrest : ∀ b ∈ rest, f b = Except.ok (g b) := fun b hb => h b (List.mem_cons_of_mem _ hb)
    simp [exMap, ha, ih hrest, Except.map]

theorem pyMin_eq_min? (l : List ℚ) : pyMin l = l.min?.getD 0 := by
  cases l <;> rfl

theorem allNum_take (results : List TradeRecord) (h : allNum (results.map getProfit))
    (n : Nat) : allNum ((results.take n).map getProfit) := by
  intro v hv
  exact h v (List.map_subset getProfit (List.take_subset n results) hv)

/-- General evaluation of `assess_performance` on numeric data: profit
sum, positive fraction, and minimum of the prefix-sum sequence. -/
theorem assess_performance_eval (results : List TradeRecord)
    (h : allNum (results.map getProfit)) :
    assess_performance results = Except.ok
      ⟨(results.map profitVal).sum,
       ((results.filter (fun t => decide (0 < profitVal t))).length : ℚ) /
         (results.length : ℚ),
       ((prefixSums (results.map profitVal)).min?).getD 0⟩ := by
  match results with
  | [] => simp [assess_performance, prefixSums]
  | t :: ts =>
    have hsum := pySum_ok _ h
    have hcount := pyCountPos_ok _ h
    have hrb : exMap (fun i => pySum (((t :: ts).take (i + 1)).map getProfit))
        (List.range (t :: ts).length) =
        Except.ok ((List.range (t :: ts).length).map
          (fun i => (((t :: ts).take (i + 1)).map profitVal).sum)) := by
      refine exMap_ok _ _ _ (fun i _ => ?_)
      rw [pySum_ok _ (allNum_take (t :: ts) h (i + 1))]
      congr 1
      rw [List.map_map]
      rfl
    have hpre : prefixSums ((t :: ts).map profitVal) =
        (List.range (t :: ts).length).map
          (fun i => (((t :: ts).take (i + 1)).map profitVal).sum) := by
      unfold prefixSums
      rw [List.length_map]
      refine List.map_congr_left (fun i _ => ?_)
      rw [List.map_take]
    have hmap : ((t :: ts).map getProfit).map pyValQ = (t :: ts).map profitVal := by
      rw [List.map_map]; rfl
    have hcnt2 : ((t :: ts).map getProfit).countP (fun v => decide (0 < pyValQ v)) =
        ((t :: ts).filter (fun t => decide (0 < profitVal t))).length := by
      rw [List.countP_map, ← List.countP_eq_length_filter]
      rfl
    have hne : (List.range (t :: ts).length).map
        (fun i => (((t :: ts).take (i + 1)).map profitVal).sum) ≠ [] := by
      simp
    simp only [assess_performance, List.isEmpty_cons, Bool.false_eq_true, if_false,
      hsum, hcount, hrb, hmap, hcnt2, hpre]
    simp only [Bind.bind, Except.bind]
    rw [if_neg (by simp)]
    rw [pyMin_eq_min?]

/-- C5: on numeric data `assess_performance` returns profitability = sum
of profits (missing treated as 0), success_rate = positive count over
total, and max_drawdown = minimum of the prefix-sum sequence; the empty
dataset yields all zeros without raising; and the concrete scenario
`[{profit: 100}, {profit: -150}, {profit: 30}]` yields
`(-20, 2/3, -50)`. -/
theorem assess_performance_correct :
    (assess_performance [] = Except.ok ⟨0, 0, 0⟩) ∧
    (∀ results : List TradeRecord, allNum (results.map getProfit) →
      assess_performance results = Except.ok
        ⟨(results.map profitVal).sum,
         ((results.filter (fun t => decide (0 < profitVal t))).length : ℚ) /
           (results.length : ℚ),
         ((prefixSums (results.map profitVal)).min?).getD 0⟩) ∧
    (assess_performance
        [{ profit := some (PyVal.num 100) }, { profit := some (PyVal.num (-150)) },
         { profit := some (PyVal.num 30) }] =
      Except.ok ⟨-20, 2/3, -50⟩) := by
  refine ⟨by simp [assess_performance], assess_performance_eval, ?_⟩
  rw [assess_performance_eval _ (by intro v hv; simp [getProfit] at hv; tauto)]
  have h1 : (List.map profitVal
      [{ profit := some (PyVal.num 100) }, { profit := some (PyVal.num (-150)) },
       { profit := some (PyVal.num 30) }] : List ℚ) = [100, -150, 30] := by
    simp [profitVal, getProfit, pyValQ]
  have h2 : prefixSums ([100, -150, 30] : List ℚ) = [100, -50, -20] := by
    simp [prefixSums, List.range_succ]
    norm_num
  rw [h1, h2]
  have h3 : (([100, -150, 30] : List ℚ)).sum = -20 := by norm_num
  have h4 : (([100, -50, -20] : List ℚ)).min?.getD 0 = -50 := by
    simp [List.min?]
    norm_num [min_def]
  have h5 : (List.filter (fun t => decide (0 < profitVal t))
      [{ profit := some (PyVal.num 100) }, { profit := some (PyVal.num (-150)) },
       { profit := some (PyVal.num 30) }]).length = 2 := by
    norm_num [List.filter, profitVal, getProfit, pyValQ]
  rw [h3, h4, h5]
  norm_num

/-- Witness for C5's quantified part at the concrete scenario list. -/
theorem assess_performance_correct_witness :
    assess_performance
        [{ profit := some (PyVal.num 100) }, { profit := some (PyVal.num (-150)) },
         { profit := some (PyVal.num 30) }] =
      Except.ok
        ⟨(List.map profitVal
            [{ profit := some (PyVal.num 100) }, { profit := some (PyVal.num (-150)) },
             { profit := some (PyVal.num 30) }]).sum,
         ((List.filter (fun t => decide (0 < profitVal t))
            [{ profit := some (PyVal.num 100) }, { profit := some (PyVal.num (-150)) },
             { profit := some (PyVal.num 30) }]).length : ℚ) / (3 : ℚ),
         ((prefixSums (List.map profitVal
            [{ profit := some (PyVal.num 100) }, { profit := some (PyVal.num (-150)) },
             { profit := some (PyVal.num 30) }])).min?).getD 0⟩ := by
  have := assess_performance_correct.2.1
    [{ profit := some (PyVal.num 100) }, { profit := some (PyVal.num (-150)) },
     { profit := some (PyVal.num 30) }]
    (by intro v hv; simp [getProfit] at hv; tauto)
  simpa using this

/-- Evaluation never touches the stored files (only the record map). -/
theorem evaluate_feature_files (w : WriterState) (m : PyModule)
    (eval_data : List TradeRecord) (et : ℚ) :
    (evaluate_feature w m eval_data et).2.files = w.files := by
  rcases hs : m.strategy with _ | f
  · simp [evaluate_feature, hs]
  · rcases ho : f eval_data with _ | _ | rs
    · simp [evaluate_feature, hs, ho]
    · simp [evaluate_feature, hs, ho]
    · rcases ha : assess_performance rs with e | p
      · simp [evaluate_feature, hs, ho, ha]
      · simp [evaluate_feature, hs, ho, ha]

/-- Evaluation never touches the retention bound. -/
theorem evaluate_feature_max_versions (w : WriterState) (m : PyModule)
    (eval_data : List TradeRecord) (et : ℚ) :
    (evaluate_feature w m eval_data et).2.max_versions = w.max_versions := by
  rcases hs : m.strategy with _ | f
  · simp [evaluate_feature, hs]
  · rcases ho : f eval_data with _ | _ | rs
    · simp [evaluate_feature, hs, ho]
    · simp [evaluate_feature, hs, ho]
    · rcases ha : assess_performance rs with e | p
      · simp [evaluate_feature, hs, ho, ha]
      · simp [evaluate_feature, hs, ho, ha]

/-- C7: every evaluation fault — missing `new_strategy`, the strategy
raising, a non-list result, or a fault inside metric computation —
makes `evaluate_feature` return `(None, None)` and leaves the writer
state, in particular the performance-record map, exactly as it was. -/
theorem evaluate_feature_fault_frame (w : WriterState) (m : PyModule)
    (eval_data : List TradeRecord) (et : ℚ)
    (h : m.strategy = none ∨
      ∃ f, m.strategy = some f ∧
        (f eval_data = StrategyOutcome.raises ∨
         f eval_data = StrategyOutcome.nonList ∨
         ∃ rs, f eval_data = StrategyOutcome.ok rs ∧
           assess_performance rs = Except.error ())) :
    evaluate_feature w m eval_data et = ((none, none), w) := by
  rcases h with h | ⟨f, hf, hcase⟩
  · simp [evaluate_feature, h]
  · rcases hcase with h1 | h1 | ⟨rs, h1, h2⟩
    · simp [evaluate_feature, hf, h1]
    · simp [evaluate_feature, hf, h1]
    · simp [evaluate_feature, hf, h1, h2]

/-- Witness for C7: a module with no `new_strategy` on the empty
dataset. -/
theorem evaluate_feature_fault_frame_witness :
    evaluate_feature ⟨5, ["bad.py"], []⟩ ⟨"bad", none⟩ [] 0 =
      ((none, none), ⟨5, ["bad.py"], []⟩) :=
  evaluate_feature_fault_frame ⟨5, ["bad.py"], []⟩ ⟨"bad", none⟩ [] 0 (Or.inl rfl)

/-- C6: when evaluation succeeds and the record satisfies all three
thresholds (profitability ≥ 0, success_rate ≥ 0.6, max_drawdown ≥
−1000), `self_improve` returns nothing and the stored files are exactly
those before the call. -/
theorem self_improve_healthy_frame (loader : String → Option PyModule) (now : Nat)
    (et : ℚ) (w : WriterState) (feature_name : String) (eval_data : List TradeRecord)
    (m : PyModule) (perf : Perf)
    (hl : load_feature w loader feature_name = some m)
    (he : (evaluate_feature w m eval_data et).1.1 = some perf)
    (h1 : 0 ≤ perf.profitability) (h2 : 3/5 ≤ perf.success_rate)
    (h3 : -1000 ≤ perf.max_drawdown) :
    (self_improve loader now et w feature_name eval_data).1 = none ∧
    (self_improve loader now et w feature_name eval_data).2.files = w.files := by
  have hfiles := evaluate_feature_files w m eval_data et
  rcases hE : evaluate_feature w m eval_data et with ⟨⟨p, t⟩, w₁⟩
  rw [hE] at hfiles
  rw [hE] at he
  simp only at he hfiles
  subst he
  have hcond : ¬ (perf.profitability < 0 ∨ perf.success_rate < 3/5 ∨
      perf.max_drawdown < -1000) := by
    push_neg
    exact ⟨h1, h2, h3⟩
  simp only [self_improve, hl, hE]
  rw [if_neg hcond]
  exact ⟨rfl, hfiles⟩

/-- Healthy module used by the C6 witness: its strategy always returns
one trade of profit `1`. -/
def mHealthy : PyModule :=
  ⟨"h", some (fun _ => StrategyOutcome.ok [{ profit := some (PyVal.num 1) }])⟩

/-- Writer state used by the C6 witness. -/
def wHealthy : WriterState := ⟨5, ["h.py"], []⟩

/-- Witness for C6: a stored feature whose evaluation meets all three
thresholds is left alone. -/
theorem self_improve_healthy_frame_witness :
    (self_improve (fun _ => some mHealthy) 7 0 wHealthy "h" []).1 = none ∧
    (self_improve (fun _ => some mHealthy) 7 0 wHealthy "h" []).2.files = wHealthy.files := by
  have ha : assess_performance [{ profit := some (PyVal.num 1) }] =
      Except.ok ⟨1, 1, 1⟩ := by
    rw [assess_performance_eval _ (by intro v hv; simp [getProfit] at hv; tauto)]
    norm_num [profitVal, getProfit, pyValQ, prefixSums, List.range_succ]
  have he : (evaluate_feature wHealthy mHealthy [] 0).1.1 = some ⟨1, 1, 1⟩ := by
    simp [evaluate_feature, mHealthy, ha]
  exact self_improve_healthy_frame (fun _ => some mHealthy) 7 0 wHealthy "h" []
    mHealthy ⟨1, 1, 1⟩ (by simp [load_feature, wHealthy]) he
    (by norm_num) (by norm_num) (by norm_num)

/-- On numeric expected returns the synthesized strategy succeeds and
produces, per record, profit `expected_return * pf * rf`. -/
theorem improvedStrategy_ok (pf rf : ℚ) (data : List TradeRecord)
    (h : allNum (data.map getExpectedReturn)) :
    improvedStrategy pf rf data = Except.ok
      (data.map (fun t =>
        { profit := some (PyVal.num (erVal t * pf * rf)),
          expected_return := some (PyVal.num (erVal t)) })) := by
  induction data with
  | nil => simp [improvedStrategy]
  | cons t rest ih =>
    obtain ⟨q, hq⟩ := h (getExpectedReturn t) (by simp)
    have hrest : allNum (rest.map getExpectedReturn) := by
      intro v hv
      exact h v (by simp at hv ⊢; tauto)
    simp [improvedStrategy, hq, ih hrest, erVal, pyValQ, Except.map]

/-- C2 amended: when load and evaluation succeed with success_rate below
0.6, `self_improve` synthesizes and writes the improved version; it
returns the new name exactly when the post-write cleanup succeeds (the
`hwr` hypothesis); and when the recorded profitability was negative and
the dataset's total numeric expected return is nonnegative, the
synthesized strategy's profitability on the same data strictly exceeds
the previous recorded profitability. -/
theorem self_improve_amended (loader : String → Option PyModule) (now : Nat)
    (et : ℚ) (w : WriterState) (feature_name : String) (eval_data : List TradeRecord)
    (m : PyModule) (perf : Perf)
    (hl : load_feature w loader feature_name = some m)
    (he : (evaluate_feature w m eval_data et).1.1 = some perf)
    (hsr : perf.success_rate < 3/5)
    (hwr : (write_feature (evaluate_feature w m eval_data et).2.max_versions
      (evaluate_feature w m eval_data et).2.files
      (feature_name ++ "_v" ++ toString now)).1 = true) :
    (self_improve loader now et w feature_name eval_data).1 =
      some (feature_name ++ "_v" ++ toString now) ∧
    (perf.profitability < 0 →
      allNum (eval_data.map getExpectedReturn) →
      0 ≤ (eval_data.map erVal).sum →
      ∃ rs p', improvedStrategy (generate_improved_feature perf).1
          (generate_improved_feature perf).2 eval_data = Except.ok rs ∧
        assess_performance rs = Except.ok p' ∧
        perf.profitability < p'.profitability) := by
  constructor
  · rcases hE : evaluate_feature w m eval_data et with ⟨⟨p, t⟩, w₁⟩
    rw [hE] at he hwr
    simp only at he hwr
    subst he
    have hcond : perf.profitability < 0 ∨ perf.success_rate < 3/5 ∨
        perf.max_drawdown < -1000 := Or.inr (Or.inl hsr)
    rcases hW : write_feature w₁.max_versions w₁.files
        (feature_name ++ "_v" ++ toString now) with ⟨b, files'⟩
    rw [hW] at hwr
    simp only at hwr
    subst hwr
    simp [self_improve, hl, hE, hW, if_pos hcond]
  · intro hneg hnum hS
    have hpf : (generate_improved_feature perf).1 = 11/10 := by
      simp [generate_improved_feature, if_pos hneg]
    have hrf : (0:ℚ) < (generate_improved_feature perf).2 := by
      simp only [generate_improved_feature]
      split <;> norm_num
    refine ⟨_, _, improvedStrategy_ok _ _ eval_data hnum, assess_performance_eval _ ?_, ?_⟩
    · intro v hv
      rw [List.map_map] at hv
      simp only [List.mem_map] at hv
      obtain ⟨t, _, ht⟩ := hv
      exact ⟨_, ht.symm⟩
    · have hmap : (List.map profitVal (eval_data.map (fun t =>
          ({ profit := some (PyVal.num (erVal t * (generate_improved_feature perf).1 *
              (generate_improved_feature perf).2)),
             expected_return := some (PyVal.num (erVal t)) } : TradeRecord)))) =
          eval_data.map (fun t => erVal t *
            ((generate_improved_feature perf).1 * (generate_improved_feature perf).2)) := by
        rw [List.map_map]
        refine List.map_congr_left (fun t _ => ?_)
        simp [profitVal, getProfit, pyValQ, mul_assoc]
      simp only [hmap]
      rw [List.sum_map_mul_right]
      have hfac : (0:ℚ) < (generate_improved_feature perf).1 *
          (generate_improved_feature perf).2 := by
        rw [hpf]
        positivity
      calc perf.profitability < 0 := hneg
        _ ≤ (eval_data.map erVal).sum *
            ((generate_improved_feature perf).1 * (generate_improved_feature perf).2) :=
          mul_nonneg hS (le_of_lt hfac)

/-- Module used by the C2 witness: always loses 5. -/
def mImprove : PyModule :=
  ⟨"h", some (fun _ => StrategyOutcome.ok [{ profit := some (PyVal.num (-5)) }])⟩

/-- Writer state used by the C2 witness. -/
def wImprove : WriterState := ⟨5, ["h.py"], []⟩

/-- Evaluation data used by the C2 witness: one record of expected
return 100. -/
def dataImprove : List TradeRecord := [{ expected_return := some (PyVal.num 100) }]

/-- Witness for the amended C2: a losing feature on data with positive
total expected return is rewritten, the new name is returned, and the
synthesized strategy strictly improves profitability. -/
theorem self_improve_amended_witness :
    (self_improve (fun _ => some mImprove) 42 0 wImprove "h" dataImprove).1 =
      some ("h" ++ "_v" ++ toString 42) ∧
    (∃ rs p', improvedStrategy (generate_improved_feature ⟨-5, 0, -5⟩).1
        (generate_improved_feature ⟨-5, 0, -5⟩).2 dataImprove = Except.ok rs ∧
      assess_performance rs = Except.ok p' ∧
      (Perf.profitability ⟨-5, 0, -5⟩) < p'.profitability) := by
  have ha : assess_performance [{ profit := some (PyVal.num (-5)) }] =
      Except.ok ⟨-5, 0, -5⟩ := by
    rw [assess_performance_eval _ (by intro v hv; simp [getProfit] at hv; tauto)]
    norm_num [profitVal, getProfit, pyValQ, prefixSums, List.range_succ]
  have he : (evaluate_feature wImprove mImprove dataImprove 0).1.1 = some ⟨-5, 0, -5⟩ := by
    simp [evaluate_feature, mImprove, ha]
  have h := self_improve_amended (fun _ => some mImprove) 42 0 wImprove "h" dataImprove
    mImprove ⟨-5, 0, -5⟩ (by simp [load_feature, wImprove]) he (by norm_num)
    (by
      rw [evaluate_feature_files, evaluate_feature_max_versions]
      decide)
  exact ⟨h.1, h.2 (by norm_num) (by intro v hv; simp [getExpectedReturn, dataImprove] at hv; tauto)
    (by norm_num [dataImprove, erVal, getExpectedReturn, pyValQ])⟩

/-- Module of counterexample scenario B: always loses 1. -/
def mCexB : PyModule :=
  ⟨"f", some (fun _ => StrategyOutcome.ok [{ profit := some (PyVal.num (-1)) }])⟩

/-- Store of counterexample scenario B. -/
def wCexB : WriterState := ⟨5, ["f.py"], []⟩

/-- Data of counterexample scenario B: total expected return −1000. -/
def dataCexB : List TradeRecord := [{ expected_return := some (PyVal.num (-1000)) }]

/-- Module of counterexample scenario A: always loses 1. -/
def mCexA : PyModule :=
  ⟨"g", some (fun _ => StrategyOutcome.ok [{ profit := some (PyVal.num (-1)) }])⟩

/-- Store of counterexample scenario A: a sibling file with a malformed
version suffix shares the base `g`. -/
def wCexA : WriterState := ⟨5, ["g.py", "g_vx.py"], []⟩

/-- C2 counterexample.  Scenario B: evaluation records success_rate 0 <
0.6 and profitability −1 < 0, a new version is written and returned,
yet the synthesized strategy's profitability on the same data is −1100,
strictly worse than −1.  Scenario A: success_rate 0 < 0.6 but
`self_improve` returns nothing (the post-write cleanup raises on the
malformed sibling `g_vx.py`), so no new version name is produced. -/
theorem self_improve_improvement_cex :
    ((evaluate_feature wCexB mCexB dataCexB 0).1.1 = some ⟨-1, 0, -1⟩) ∧
    ((0:ℚ) < 3/5 ∧ (-1:ℚ) < 0) ∧
    ((self_improve (fun _ => some mCexB) 100 0 wCexB "f" dataCexB).1 =
      some ("f" ++ "_v" ++ toString 100)) ∧
    (generate_improved_feature ⟨-1, 0, -1⟩ = (11/10, 1)) ∧
    (∃ rs p', improvedStrategy (11/10) 1 dataCexB = Except.ok rs ∧
      assess_performance rs = Except.ok p' ∧ p'.profitability = -1100 ∧
      ¬ ((-1:ℚ) < p'.profitability)) ∧
    ((evaluate_feature wCexA mCexA [] 0).1.1 = some ⟨-1, 0, -1⟩) ∧
    ((self_improve (fun _ => some mCexA) 100 0 wCexA "g" []).1 = none) := by
  have ha : assess_performance [{ profit := some (PyVal.num (-1)) }] =
      Except.ok ⟨-1, 0, -1⟩ := by
    rw [assess_performance_eval _ (by intro v hv; simp [getProfit] at hv; tauto)]
    norm_num [profitVal, getProfit, pyValQ, prefixSums, List.range_succ]
  have hEB : evaluate_feature wCexB mCexB dataCexB 0 =
      ((some ⟨-1, 0, -1⟩, some 0), ⟨5, ["f.py"], [("f", ⟨⟨-1, 0, -1⟩, 0⟩)]⟩) := by
    simp [evaluate_feature, mCexB, wCexB, ha, pyDictInsert]
  have hEA : evaluate_feature wCexA mCexA [] 0 =
      ((some ⟨-1, 0, -1⟩, some 0), ⟨5, ["g.py", "g_vx.py"], [("g", ⟨⟨-1, 0, -1⟩, 0⟩)]⟩) := by
    simp [evaluate_feature, mCexA, wCexA, ha, pyDictInsert]
  have hWB : write_feature 5 ["f.py"] ("f" ++ "_v" ++ toString 100) =
      (true, ["f.py", "f_v100.py"]) := by decide
  have hWA : write_feature 5 ["g.py", "g_vx.py"] ("g" ++ "_v" ++ toString 100) =
      (false, ["g.py", "g_vx.py", "g_v100.py"]) := by decide
  have hloadB : load_feature wCexB (fun _ => some mCexB) "f" = some mCexB := by
    simp [load_feature, wCexB]
  have hloadA : load_feature wCexA (fun _ => some mCexA) "g" = some mCexA := by
    simp [load_feature, wCexA]
  refine ⟨by rw [hEB], ⟨by norm_num, by norm_num⟩, ?_, ?_, ?_, by rw [hEA], ?_⟩
  · simp only [self_improve, hloadB, hEB]
    norm_num [hWB]
  · norm_num [generate_improved_feature]
  · refine ⟨_, ⟨-1100, 0, -1100⟩, improvedStrategy_ok (11/10) 1 dataCexB
      (by intro v hv; simp [getExpectedReturn, dataCexB] at hv; tauto), ?_,
      by norm_num, by norm_num⟩
    rw [assess_performance_eval _ (by
      intro v hv
      simp [dataCexB, getProfit] at hv
      tauto)]
    norm_num [dataCexB, erVal, getExpectedReturn, pyValQ, profitVal, getProfit,
      prefixSums, List.range_succ]
  · simp only [self_improve, hloadA, hEA]
    norm_num [hWA]

/-! ### Retention-bound machinery for C3 -/

theorem exMapKey_ok {α β : Type} (f : α → Except Unit β) (g : α → β) (l : List α)
    (h : ∀ a ∈ l, f a = Except.ok (g a)) :
    exMapKey f l = Except.ok (l.map g) := by
  induction l with
  | nil => simp [exMapKey]
  | cons a rest ih =>
    have ha := h a (List.mem_cons_self a rest)
    have hrest : ∀ b ∈ rest, f b = Except.ok (g b) := fun b hb => h b (List.mem_cons_of_mem _ hb)
    simp [exMapKey, ha, ih hrest, Except.map]

/-- A sorted-by-key permutation of a list with pairwise-distinct keys is
unique. -/
theorem sorted_perm_keys_nodup_eq :
    ∀ {l₁ l₂ : List (String × Int)}, l₁.Perm l₂ → l₁.Sorted keyLe → l₂.Sorted keyLe →
    (l₁.map Prod.snd).Nodup → l₁ = l₂ := by
  intro l₁
  induction l₁ with
  | nil => intro l₂ hp _ _ _; exact (hp.nil_eq).symm ▸ rfl
  | cons a t₁ ih =>
    intro l₂ hp hs₁ hs₂ hnd
    match l₂ with
    | [] => exact absurd hp.symm.nil_eq (by simp)
    | b :: t₂ =>
      have hab : a = b := by
        have ha2 : a ∈ b :: t₂ := hp.mem_iff.mp (List.mem_cons_self a t₁)
        have hb1 : b ∈ a :: t₁ := hp.mem_iff.mpr (List.mem_cons_self b t₂)
        have h₁ : keyLe a b := by
          rcases List.mem_cons.mp hb1 with h | h
          · exact h ▸ le_refl _
          · exact List.rel_of_sorted_cons hs₁ b h
        have h₂ : keyLe b a := by
          rcases List.mem_cons.mp ha2 with h | h
          · exact h ▸ le_refl _
          · exact List.rel_of_sorted_cons hs₂ a h
        have hkey : a.2 = b.2 := le_antisymm h₁ h₂
        by_contra hne
        have hbt : b ∈ t₁ := by
          rcases List.mem_cons.mp hb1 with h | h
          · exact absurd h.symm hne
          · exact h
        have : b.2 ∈ t₁.map Prod.snd := List.mem_map_of_mem Prod.snd hbt
        rw [← hkey] at this
        exact (List.nodup_cons.mp (by simpa using hnd)).1 this
      subst hab
      have hpt : t₁.Perm t₂ := hp.cons_inv
      have := ih hpt hs₁.of_cons hs₂.of_cons (List.Nodup.of_cons (by simpa using hnd))
      rw [this]

/-- Inserting an element below everything and dropping one is the
identity. -/
theorem orderedInsert_drop_one (x : String × Int) :
    ∀ (l : List (String × Int)), (∀ b ∈ l, keyLe x b) →
    (List.orderedInsert keyLe x l).drop 1 = l := by
  intro l hl
  cases l with
  | nil => simp [List.orderedInsert]
  | cons b l' =>
    have := hl b (List.mem_cons_self b l')
    simp [List.orderedInsert, if_pos this]

/-- Ordered insertion commutes with dropping a front segment of a sorted
list. -/
theorem orderedInsert_drop (x : String × Int) :
    ∀ (s : List (String × Int)), s.Sorted keyLe → ∀ (d : Nat),
    (List.orderedInsert keyLe x (s.drop d)).drop 1 =
    (List.orderedInsert keyLe x s).drop (d + 1) := by
  intro s
  induction s with
  | nil =>
    intro _ d
    simp [List.orderedInsert]
  | cons a t ih =>
    intro hs d
    cases d with
    | zero => simp
    | succ d' =>
      have hdrop : (a :: t).drop (d' + 1) = t.drop d' := rfl
      rw [hdrop]
      by_cases h : keyLe x a
      · rw [List.orderedInsert_of_le _ _ h]
        have : ∀ b ∈ t.drop d', keyLe x b := fun b hb =>
          le_trans h (List.rel_of_sorted_cons hs b (List.mem_of_mem_drop hb))
        rw [orderedInsert_drop_one x _ this]
        rfl
      · have : List.orderedInsert keyLe x (a :: t) = a :: List.orderedInsert keyLe x t := by
          simp [List.orderedInsert, if_neg h]
        rw [this]
        have : (a :: List.orderedInsert keyLe x t).drop (d' + 1 + 1) =
            (List.orderedInsert keyLe x t).drop (d' + 1) := rfl
        rw [this, ← ih hs.of_cons d']

theorem countP_lt_length_of_mem {α : Type} (p : α → Bool) {x : α} {l : List α}
    (hx : x ∈ l) (hpx : p x = false) : l.countP p < l.length := by
  refine Nat.lt_of_le_of_ne (List.countP_le_length p) (fun heq => ?_)
  have := List.countP_eq_length.mp heq x hx
  rw [hpx] at this
  exact Bool.false_ne_true this

/-- Membership in the last `k` entries of a sorted distinct-key list is
exactly having fewer than `k` strictly larger keys. -/
theorem sorted_drop_topk :
    ∀ (s : List (String × Int)), s.Sorted keyLe → (s.map Prod.snd).Nodup →
    ∀ (k : Nat) (x : String × Int),
    (x ∈ s.drop (s.length - k) ↔
      x ∈ s ∧ s.countP (fun u => decide (x.2 < u.2)) < k) := by
  intro s
  induction s with
  | nil => intro _ _ k x; simp
  | cons a t ih =>
    intro hs hnd k x
    by_cases hlen : (a :: t).length ≤ k
    · rw [Nat.sub_eq_zero_of_le hlen, List.drop_zero]
      constructor
      · intro hx
        refine ⟨hx, lt_of_lt_of_le ?_ hlen⟩
        exact countP_lt_length_of_mem _ hx (by simp)
      · exact fun h => h.1
    · push_neg at hlen
      have hkt : k ≤ t.length := by
        have := Nat.lt_of_lt_of_le hlen (by simp [List.length_cons] : (a :: t).length ≤ t.length + 1)
        omega
      have hdrop : (a :: t).drop ((a :: t).length - k) = t.drop (t.length - k) := by
        have h1 : (a :: t).length - k = (t.length - k) + 1 := by
          simp only [List.length_cons]
          omega
        rw [h1]
        rfl
      rw [hdrop]
      have hnd' : (t.map Prod.snd).Nodup := (List.nodup_cons.mp (by simpa using hnd)).2
      have hha : a.2 ∉ t.map Prod.snd := (List.nodup_cons.mp (by simpa using hnd)).1
      rw [ih hs.of_cons hnd' k x]
      constructor
      · rintro ⟨hxt, hcnt⟩
        refine ⟨List.mem_cons_of_mem a hxt, ?_⟩
        have hax : ¬ (x.2 < a.2) := not_lt.mpr (List.rel_of_sorted_cons hs x hxt)
        rw [List.countP_cons]
        simpa [hax] using hcnt
      · rintro ⟨hxs, hcnt⟩
        have hxt : x ∈ t := by
          rcases List.mem_cons.mp hxs with h | h
          · exfalso
            subst h
            have hall : ∀ u ∈ t, decide (x.2 < u.2) = true := by
              intro u hu
              have hle : x.2 ≤ u.2 := List.rel_of_sorted_cons hs u hu
              have hne : x.2 ≠ u.2 := by
                intro hcontra
                exact hha (hcontra ▸ List.mem_map_of_mem Prod.snd hu)
              simp [lt_of_le_of_ne hle hne]
            have hcntfull : (x :: t).countP (fun u => decide (x.2 < u.2)) = t.length := by
              rw [List.countP_cons]
              have h0 : (decide (x.2 < x.2) : Bool) = false := by simp
              have h1 : t.countP (fun u => decide (x.2 < u.2)) = t.length :=
                List.countP_eq_length.mpr hall
              simp [h0, h1]
            rw [hcntfull] at hcnt
            omega
          · exact h
        refine ⟨hxt, ?_⟩
        have hax : ¬ (x.2 < a.2) := not_lt.mpr (List.rel_of_sorted_cons hs x hxt)
        rw [List.countP_cons] at hcnt
        simpa [hax] using hcnt

theorem pySplitV_ne_nil : ∀ cs : List Char, pySplitV cs ≠ [] := by
  intro cs
  induction cs using pySplitV.induct with
  | case1 => simp [pySplitV]
  | case2 rest ih => simp [pySplitV]
  | case3 c rest hne h ih => exact absurd h ih
  | case4 c rest hne h t heq ih =>
    simp only [pySplitV]
    rw [heq]
    simp

theorem pySplitV_head_starts : ∀ cs : List Char, ((pySplitV cs).headD []) <+: cs := by
  intro cs
  induction cs using pySplitV.induct with
  | case1 => simp [pySplitV]
  | case2 rest ih => simp [pySplitV]
  | case3 c rest hne h ih => exact absurd h (pySplitV_ne_nil rest)
  | case4 c rest hne h t heq ih =>
    simp only [pySplitV]
    rw [heq]
    rw [heq] at ih
    simp only [List.headD_cons] at ih ⊢
    rw [List.cons_prefix_cons]
    exact ⟨rfl, ih⟩

/-- The base of a feature name textually starts its stored file name. -/
theorem pyStartsWith_wfile (n : String) :
    pyStartsWith (n ++ ".py") (splitBase n) = true := by
  unfold pyStartsWith splitBase
  rw [ List.isPrefixOf_iff_prefix]
  rw [String.data_append]
  exact (pySplitV_head_starts n.data).trans (List.prefix_append n.data ".py".data)

/-- Every stored file name produced by a write ends in `.py`. -/
theorem pyEndsWith_wfile (n : String) : pyEndsWith (n ++ ".py") ".py" = true := by
  unfold pyEndsWith
  rw [List.isSuffixOf_iff_suffix, String.data_append]
  exact List.suffix_append n.data ".py".data

/-- The file name written for an item of the retention argument. -/
def wfile (w : String × Int) : String := w.1 ++ ".py"

/-- The keyed pair the cleanup sort builds for an item's file. -/
def embedPy (w : String × Int) : String × Int := (w.1 ++ ".py", w.2)

/-- Fold of a sequence of writes, tracking overall success. -/
def writeFold (k : Nat) : List (String × Int) → Bool × List String → Bool × List String
  | [], acc => acc
  | w :: ws, acc =>
    writeFold k ws ((acc.1 && (write_feature k acc.2 w.1).1), (write_feature k acc.2 w.1).2)

theorem exMapKey_ok_map {α β γ : Type} (f : α → Except Unit β) (m : γ → α) (g : γ → β)
    (l : List γ) (h : ∀ a ∈ l, f (m a) = Except.ok (g a)) :
    exMapKey f (l.map m) = Except.ok (l.map g) := by
  induction l with
  | nil => simp [exMapKey]
  | cons a rest ih =>
    have ha := h a (List.mem_cons_self a rest)
    have hrest : ∀ b ∈ rest, f (m b) = Except.ok (g b) :=
      fun b hb => h b (List.mem_cons_of_mem _ hb)
    simp [exMapKey, ha, ih hrest, Except.map]

theorem orderedInsert_map_embedPy (x : String × Int) (l : List (String × Int)) :
    List.orderedInsert keyLe (embedPy x) (l.map embedPy) =
    (List.orderedInsert keyLe x l).map embedPy := by
  induction l with
  | nil => rfl
  | cons b t ih =>
    by_cases h : keyLe x b
    · have h' : keyLe (embedPy x) (embedPy b) := h
      simp only [List.map_cons, List.orderedInsert, if_pos h, if_pos h']
    · have h' : ¬ keyLe (embedPy x) (embedPy b) := h
      simp only [List.map_cons, List.orderedInsert, if_neg h, if_neg h']
      rw [ih]

theorem insertionSort_map_embedPy (l : List (String × Int)) :
    List.insertionSort keyLe (l.map embedPy) =
    (List.insertionSort keyLe l).map embedPy := by
  induction l with
  | nil => rfl
  | cons a t ih =>
    simp only [List.map_cons, List.insertionSort, ih]
    exact orderedInsert_map_embedPy a (List.insertionSort keyLe t)

/-- Evaluation of the cleanup sort on files whose keys all parse. -/
theorem sortedVersions_ok (items : List (String × Int))
    (h : ∀ w ∈ items, cleanupKey (wfile w) = Except.ok w.2) :
    sortedVersions (items.map wfile) =
      Except.ok ((List.insertionSort keyLe items).map wfile) := by
  unfold sortedVersions
  rw [exMapKey_ok_map _ wfile embedPy items (fun a ha => by
    rw [h a ha]
    rfl)]
  simp only [Bind.bind, Except.bind]
  rw [insertionSort_map_embedPy]
  have : ((List.insertionSort keyLe items).map embedPy).map Prod.fst =
      (List.insertionSort keyLe items).map wfile := by
    rw [List.map_map]
    rfl
  rw [this]

theorem insertionSort_eq_of_perm_sorted (rest canonical : List (String × Int))
    (hp : rest.Perm canonical) (hs : canonical.Sorted keyLe)
    (hnd : (rest.map Prod.snd).Nodup) :
    List.insertionSort keyLe rest = canonical := by
  refine sorted_perm_keys_nodup_eq ((List.perm_insertionSort keyLe rest).trans hp)
    (List.sorted_insertionSort keyLe rest) hs ?_
  exact ((List.perm_insertionSort keyLe rest).map Prod.snd).nodup_iff.mpr hnd

theorem insertionSort_append_singleton (l : List (String × Int)) (x : String × Int)
    (hnd : ((l ++ [x]).map Prod.snd).Nodup) :
    List.insertionSort keyLe (l ++ [x]) =
    List.orderedInsert keyLe x (List.insertionSort keyLe l) := by
  refine sorted_perm_keys_nodup_eq ?_ (List.sorted_insertionSort keyLe _) ?_ ?_
  · refine (List.perm_insertionSort keyLe _).trans ?_
    refine (List.perm_append_singleton x l).trans ?_
    exact ((List.perm_insertionSort keyLe l).symm.cons x).trans
      (List.perm_orderedInsert keyLe x (List.insertionSort keyLe l)).symm
  · exact (List.sorted_insertionSort keyLe l).orderedInsert x _
  · exact ((List.perm_insertionSort keyLe _).map Prod.snd).nodup_iff.mpr hnd

/-- Two items whose keys both parse from their file names and whose file
names coincide are equal. -/
theorem wfile_inj_of_keys {w x : String × Int}
    (hw : cleanupKey (wfile w) = Except.ok w.2) (hx : cleanupKey (wfile x) = Except.ok x.2)
    (h : wfile w = wfile x) : w = x := by
  have hdata : w.1.data ++ ".py".data = x.1.data ++ ".py".data := by
    have := congrArg String.data h
    simpa [wfile, String.data_append] using this
  have h1 : w.1 = x.1 := String.ext (List.append_cancel_right hdata)
  have h2 : w.2 = x.2 := by
    rw [show wfile w = wfile x from h] at hw
    rw [hw] at hx
    exact (Except.ok.injEq _ _).mp hx
  exact Prod.ext h1 h2

/-- Candidate selection over a store split into foreign files (not
sharing the base) and stored version files. -/
theorem listVersionCandidates_split (store₀ rfiles : List String) (base : String)
    (h0 : ∀ f ∈ store₀, pyStartsWith f base = false)
    (h1 : ∀ f ∈ rfiles, pyStartsWith f base = true ∧ pyEndsWith f ".py" = true) :
    listVersionCandidates (store₀ ++ rfiles) base = rfiles := by
  unfold listVersionCandidates
  rw [List.filter_append]
  rw [List.filter_eq_nil_iff.mpr (fun f hf => by simp [(h0 f hf)])]
  rw [List.filter_eq_self.mpr (fun f hf => by simp [(h1 f hf).1, (h1 f hf).2])]
  rfl

/-- Deleting, by name, the leading block of a duplicate-free file list
keeps exactly the trailing block. -/
theorem filter_not_mem_append (T D : List (String × Int))
    (hnd : ((T ++ D).map wfile).Nodup) :
    (T ++ D).filter (fun w => !(T.map wfile).contains (wfile w)) = D := by
  rw [List.filter_append]
  have h1 : T.filter (fun w => !(T.map wfile).contains (wfile w)) = [] := by
    refine List.filter_eq_nil_iff.mpr (fun w hw => ?_)
    have hmem : wfile w ∈ T.map wfile := List.mem_map_of_mem wfile hw
    rw [show (T.map wfile).contains (wfile w) = decide (wfile w ∈ T.map wfile) from
      List.elem_eq_mem _ _]
    simp [hmem]
  have h2 : D.filter (fun w => !(T.map wfile).contains (wfile w)) = D := by
    refine List.filter_eq_self.mpr (fun w hw => ?_)
    rw [List.map_append] at hnd
    have hdisj := (List.nodup_append.mp hnd).2.2
    have hnotmem : wfile w ∉ T.map wfile := fun hmem =>
      hdisj hmem (List.mem_map_of_mem wfile hw)
    rw [show (T.map wfile).contains (wfile w) = decide (wfile w ∈ T.map wfile) from
      List.elem_eq_mem _ _]
    simp [hnotmem]
  rw [h1, h2, List.nil_append]

/-- One write of the retention argument: the new file is created, cleanup
succeeds, and the surviving version items are a permutation of the
ordered insertion of the new item into the sorted survivors with the
oldest surplus dropped. -/
theorem write_feature_step (k : Nat) (base : String) (store₀ : List String)
    (hstore : ∀ f ∈ store₀, pyStartsWith f base = false)
    (rest canonical : List (String × Int)) (x : String × Int)
    (hbase_rest : ∀ w ∈ rest, splitBase w.1 = base)
    (hbx : splitBase x.1 = base)
    (hkeys_rest : ∀ w ∈ rest, cleanupKey (wfile w) = Except.ok w.2)
    (hkx : cleanupKey (wfile x) = Except.ok x.2)
    (hperm : rest.Perm canonical)
    (hsorted : canonical.Sorted keyLe)
    (hnd : ((rest ++ [x]).map Prod.snd).Nodup) :
    ∃ rest' : List (String × Int),
      write_feature k (store₀ ++ rest.map wfile) x.1 =
        (true, store₀ ++ rest'.map wfile) ∧
      rest'.Perm ((List.orderedInsert keyLe x canonical).drop (rest.length + 1 - k)) ∧
      (∀ w ∈ rest', w ∈ rest ++ [x]) := by
  have hndsnd := hnd
  rw [List.map_append, List.nodup_append] at hndsnd
  have hndfst : (rest.map Prod.snd).Nodup := hndsnd.1
  have hxnot : x.2 ∉ rest.map Prod.snd := fun hmem => hndsnd.2.2 hmem (by simp)
  have hpermIns : (rest ++ [x]).Perm (List.orderedInsert keyLe x canonical) :=
    (List.perm_append_singleton x rest).trans
      ((hperm.cons x).trans (List.perm_orderedInsert keyLe x canonical).symm)
  have hndPairs : (rest ++ [x]).Nodup := hnd.of_map Prod.snd
  have hkeysAll : ∀ w ∈ rest ++ [x], cleanupKey (wfile w) = Except.ok w.2 := by
    intro w hw
    rcases List.mem_append.mp hw with h | h
    · exact hkeys_rest w h
    · rw [List.mem_singleton.mp h]; exact hkx
  have hbaseAll : ∀ w ∈ rest ++ [x], splitBase w.1 = base := by
    intro w hw
    rcases List.mem_append.mp hw with h | h
    · exact hbase_rest w h
    · rw [List.mem_singleton.mp h]; exact hbx
  have hndW : ((rest ++ [x]).map wfile).Nodup := by
    refine List.Nodup.map_on ?_ hndPairs
    intro a ha b hb hab
    exact wfile_inj_of_keys (hkeysAll a ha) (hkeysAll b hb) hab
  have hfileprops : ∀ f ∈ (rest ++ [x]).map wfile,
      pyStartsWith f base = true ∧ pyEndsWith f ".py" = true := by
    intro f hf
    obtain ⟨w, hw, rfl⟩ := List.mem_map.mp hf
    refine ⟨?_, pyEndsWith_wfile w.1⟩
    have := pyStartsWith_wfile w.1
    rw [hbaseAll w hw] at this
    exact this
  have hfresh : (x.1 ++ ".py") ∉ store₀ ++ rest.map wfile := by
    intro hmem
    rcases List.mem_append.mp hmem with h | h
    · have hT := pyStartsWith_wfile x.1
      rw [hbx] at hT
      rw [show pyStartsWith (x.1 ++ ".py") base = false from hstore _ h] at hT
      exact Bool.false_ne_true hT
    · obtain ⟨w, hw, hwx⟩ := List.mem_map.mp h
      have hwx' : w = x := wfile_inj_of_keys (hkeys_rest w hw) hkx hwx
      exact hxnot (hwx' ▸ List.mem_map_of_mem Prod.snd hw)
  have hfiles₁ : (store₀ ++ rest.map wfile) ++ [x.1 ++ ".py"] =
      store₀ ++ (rest ++ [x]).map wfile := by
    rw [List.map_append, ← List.append_assoc]
    rfl
  have hcand : listVersionCandidates (store₀ ++ (rest ++ [x]).map wfile) base =
      (rest ++ [x]).map wfile :=
    listVersionCandidates_split _ _ _ hstore hfileprops
  have hsv : sortedVersions ((rest ++ [x]).map wfile) =
      Except.ok ((List.orderedInsert keyLe x canonical).map wfile) := by
    rw [sortedVersions_ok _ hkeysAll]
    rw [insertionSort_append_singleton _ _ hnd,
      insertionSort_eq_of_perm_sorted rest canonical hperm hsorted hndfst]
  have hlen_ins : (List.orderedInsert keyLe x canonical).length = rest.length + 1 := by
    rw [List.orderedInsert_length, hperm.length_eq]
  have hndInsW : ((List.orderedInsert keyLe x canonical).map wfile).Nodup :=
    ((hpermIns.map wfile).nodup_iff).mp hndW
  unfold write_feature
  dsimp only
  rw [if_neg hfresh, hfiles₁]
  unfold cleanup_old_versions
  dsimp only
  rw [hbx, hcand]
  rw [hsv]
  simp only [Bind.bind, Except.bind]
  rw [List.length_map, hlen_ins]
  by_cases hgt : rest.length + 1 > k
  · rw [if_pos hgt]
    have htake : ((List.orderedInsert keyLe x canonical).map wfile).take
        (rest.length + 1 - k) =
        ((List.orderedInsert keyLe x canonical).take (rest.length + 1 - k)).map wfile :=
      (List.map_take wfile _ _).symm
    rw [htake]
    refine ⟨(rest ++ [x]).filter (fun w =>
      !(((List.orderedInsert keyLe x canonical).take (rest.length + 1 - k)).map
        wfile).contains (wfile w)), ?_, ?_, ?_⟩
    · have hstorekeep : store₀.filter (fun f =>
          !(((List.orderedInsert keyLe x canonical).take (rest.length + 1 - k)).map
            wfile).contains f) = store₀ := by
        refine List.filter_eq_self.mpr (fun f hf => ?_)
        have hnotmem : f ∉ ((List.orderedInsert keyLe x canonical).take
            (rest.length + 1 - k)).map wfile := by
          intro hmem
          obtain ⟨w, hw, rfl⟩ := List.mem_map.mp hmem
          have hwmem : w ∈ rest ++ [x] :=
            hpermIns.symm.subset (List.take_subset _ _ hw)
          have := (hfileprops (wfile w) (List.mem_map_of_mem wfile hwmem)).1
          rw [hstore _ hf] at this
          exact Bool.false_ne_true this
        rw [show (((List.orderedInsert keyLe x canonical).take
            (rest.length + 1 - k)).map wfile).contains f =
          decide (f ∈ ((List.orderedInsert keyLe x canonical).take
            (rest.length + 1 - k)).map wfile) from List.elem_eq_mem _ _]
        rw [decide_eq_false hnotmem]
        rfl
      have hfilters : (store₀ ++ (rest ++ [x]).map wfile).filter
          (fun f => !(((List.orderedInsert keyLe x canonical).take
            (rest.length + 1 - k)).map wfile).contains f) =
          store₀ ++ ((rest ++ [x]).filter (fun w =>
            !(((List.orderedInsert keyLe x canonical).take (rest.length + 1 - k)).map
              wfile).contains (wfile w))).map wfile := by
        conv_lhs => rw [List.filter_append]
        rw [hstorekeep, List.filter_map]
        rfl
      exact congrArg (Prod.mk true) hfilters
    · have hfd := filter_not_mem_append
        ((List.orderedInsert keyLe x canonical).take (rest.length + 1 - k))
        ((List.orderedInsert keyLe x canonical).drop (rest.length + 1 - k))
        (by rw [List.take_append_drop]; exact hndInsW)
      rw [List.take_append_drop] at hfd
      exact (hpermIns.filter _).trans (hfd ▸ List.Perm.refl _)
    · intro w hw
      exact List.mem_of_mem_filter hw
  · rw [if_neg hgt]
    refine ⟨rest ++ [x], rfl, ?_, fun w hw => hw⟩
    have hd0 : rest.length + 1 - k = 0 := Nat.sub_eq_zero_of_le (Nat.le_of_not_lt hgt)
    rw [hd0, List.drop_zero]
    exact hpermIns

/-- Invariant of the write fold: starting from surviving items `rest`
(a permutation of the newest `k` of the already-written items `pre`),
processing the remaining writes succeeds and ends with the newest `k`
of all the writes. -/
theorem writeFold_inv (k : Nat) (base : String) (store₀ : List String)
    (hstore : ∀ f ∈ store₀, pyStartsWith f base = false)
    (writes : List (String × Int))
    (hbase : ∀ w ∈ writes, splitBase w.1 = base)
    (hkeys : ∀ w ∈ writes, cleanupKey (wfile w) = Except.ok w.2)
    (hnd : (writes.map Prod.snd).Nodup) :
    ∀ (ws pre rest : List (String × Int)),
    writes = pre ++ ws →
    (∀ w ∈ rest, w ∈ pre) →
    rest.Perm ((List.insertionSort keyLe pre).drop (pre.length - k)) →
    ∃ restF : List (String × Int),
      writeFold k ws (true, store₀ ++ rest.map wfile) =
        (true, store₀ ++ restF.map wfile) ∧
      restF.Perm ((List.insertionSort keyLe writes).drop (writes.length - k)) := by
  intro ws
  induction ws with
  | nil =>
    intro pre rest hsplit hsub hperm
    rw [List.append_nil] at hsplit
    subst hsplit
    exact ⟨rest, rfl, hperm⟩
  | cons x ws' ih =>
    intro pre rest hsplit hsub hperm
    have hprew : ∀ w ∈ pre, w ∈ writes := by
      intro w hw; rw [hsplit]; exact List.mem_append_left _ hw
    have hxw : x ∈ writes := by
      rw [hsplit]; exact List.mem_append_right _ (List.mem_cons_self x ws')
    have hpresub : pre.Sublist writes := hsplit ▸ List.sublist_append_left pre (x :: ws')
    have hprexsub : (pre ++ [x]).Sublist writes := by
      rw [hsplit]
      exact (List.append_sublist_append_left pre).mpr
        (List.singleton_sublist.mpr (List.mem_cons_self x ws'))
    have hndpre : (pre.map Prod.snd).Nodup := (hpresub.map Prod.snd).nodup hnd
    have hndprex : ((pre ++ [x]).map Prod.snd).Nodup := (hprexsub.map Prod.snd).nodup hnd
    have hsortpre : (List.insertionSort keyLe pre).Sorted keyLe :=
      List.sorted_insertionSort keyLe pre
    have hcansorted : ((List.insertionSort keyLe pre).drop (pre.length - k)).Sorted keyLe :=
      List.Pairwise.sublist (List.drop_sublist _ _) hsortpre
    have hcansub : ∀ w ∈ (List.insertionSort keyLe pre).drop (pre.length - k), w ∈ pre :=
      fun w hw => (List.perm_insertionSort keyLe pre).subset (List.mem_of_mem_drop hw)
    have hndsortpre : ((List.insertionSort keyLe pre).map Prod.snd).Nodup :=
      (((List.perm_insertionSort keyLe pre).map Prod.snd).nodup_iff).mpr hndpre
    have hndrest : (rest.map Prod.snd).Nodup := by
      refine ((hperm.map Prod.snd).nodup_iff).mpr ?_
      exact (((List.drop_sublist (pre.length - k) _).map Prod.snd)).nodup hndsortpre
    have hx2notpre : x.2 ∉ pre.map Prod.snd := by
      intro hmem
      rw [hsplit, List.map_append, List.nodup_append] at hnd
      exact hnd.2.2 hmem (by simp)
    have hndrx : ((rest ++ [x]).map Prod.snd).Nodup := by
      rw [List.map_append, List.nodup_append]
      refine ⟨hndrest, by simp, ?_⟩
      intro a ha hax
      have hax' : a = x.2 := by simpa using hax
      subst hax'
      obtain ⟨w, hw, hw2⟩ := List.mem_map.mp ha
      have : w ∈ pre := hsub w hw
      exact hx2notpre (hw2 ▸ List.mem_map_of_mem Prod.snd this)
    obtain ⟨rest', hwrite, hperm', hsub'⟩ :=
      write_feature_step k base store₀ hstore rest
        ((List.insertionSort keyLe pre).drop (pre.length - k)) x
        (fun w hw => hbase w (hprew w (hsub w hw)))
        (hbase x hxw)
        (fun w hw => hkeys w (hprew w (hsub w hw)))
        (hkeys x hxw)
        hperm hcansorted hndrx
    have hrl : rest.length = pre.length - (pre.length - k) := by
      rw [hperm.length_eq, List.length_drop, List.length_insertionSort]
    have hsort_append : List.insertionSort keyLe (pre ++ [x]) =
        List.orderedInsert keyLe x (List.insertionSort keyLe pre) :=
      insertionSort_append_singleton pre x hndprex
    have hperm'' : rest'.Perm
        ((List.insertionSort keyLe (pre ++ [x])).drop ((pre ++ [x]).length - k)) := by
      rw [hsort_append, List.length_append, List.length_singleton]
      by_cases hk : k ≤ pre.length
      · have h1 : rest.length = k := by rw [hrl, Nat.sub_sub_self hk]
        have h2 : rest.length + 1 - k = 1 := by rw [h1]; omega
        have h3 : pre.length + 1 - k = (pre.length - k) + 1 := by omega
        rw [h3]
        rw [← orderedInsert_drop x (List.insertionSort keyLe pre) hsortpre (pre.length - k)]
        rw [h2] at hperm'
        exact hperm'
      · push_neg at hk
        have h0 : pre.length - k = 0 := by omega
        have h1 : rest.length = pre.length := by rw [hrl, h0, Nat.sub_zero]
        have h2 : rest.length + 1 - k = 0 := by omega
        have h3 : pre.length + 1 - k = 0 := by omega
        rw [h3, List.drop_zero]
        rw [h2, List.drop_zero] at hperm'
        rw [h0, List.drop_zero] at hperm'
        exact hperm'
    have hsplit' : writes = (pre ++ [x]) ++ ws' := by
      rw [hsplit, List.append_assoc]
      rfl
    have hsub'' : ∀ w ∈ rest', w ∈ pre ++ [x] := by
      intro w hw
      rcases List.mem_append.mp (hsub' w hw) with h | h
      · exact List.mem_append_left _ (hsub w h)
      · exact List.mem_append_right _ h
    obtain ⟨restF, hfold, hpermF⟩ := ih (pre ++ [x]) rest' hsplit' hsub'' hperm''
    refine ⟨restF, ?_, hpermF⟩
    show writeFold k (x :: ws') (true, store₀ ++ rest.map wfile) = _
    rw [writeFold, hwrite]
    exact hfold

/-- C3: for retention bound `k ≥ 1` and any sequence of at least `k`
writes of versions of one feature (well-formed distinct version numbers,
no foreign file sharing the base), every write succeeds, exactly `k`
version files for the base remain, and they are exactly the writes with
fewer than `k` strictly larger version numbers — the `k` newest. -/
theorem write_feature_retention (k : Nat) (hk : 0 < k) (base : String)
    (writes : List (String × Int)) (store₀ : List String)
    (hbase : ∀ w ∈ writes, splitBase w.1 = base)
    (hkeys : ∀ w ∈ writes, cleanupKey (w.1 ++ ".py") = Except.ok w.2)
    (hnd : (writes.map Prod.snd).Nodup)
    (hstore : ∀ f ∈ store₀, pyStartsWith f base = false)
    (hlen : k ≤ writes.length) :
    (writeFold k writes (true, store₀)).1 = true ∧
    (listVersionCandidates (writeFold k writes (true, store₀)).2 base).length = k ∧
    (∀ f, f ∈ listVersionCandidates (writeFold k writes (true, store₀)).2 base ↔
      ∃ w, w ∈ writes ∧ f = w.1 ++ ".py" ∧
        writes.countP (fun u => decide (w.2 < u.2)) < k) := by
  obtain ⟨restF, hfold, hpermF⟩ :=
    writeFold_inv k base store₀ hstore writes hbase hkeys hnd writes [] []
      (by simp) (by simp) (by simp)
  rw [show store₀ ++ List.map wfile [] = store₀ by simp] at hfold
  have hmemF : ∀ w ∈ restF, w ∈ writes := by
    intro w hw
    exact (List.perm_insertionSort keyLe writes).subset
      (List.mem_of_mem_drop (hpermF.subset hw))
  have hcand : listVersionCandidates (store₀ ++ restF.map wfile) base =
      restF.map wfile := by
    refine listVersionCandidates_split store₀ _ base hstore ?_
    intro f hf
    obtain ⟨w, hw, rfl⟩ := List.mem_map.mp hf
    refine ⟨?_, pyEndsWith_wfile w.1⟩
    have := pyStartsWith_wfile w.1
    rw [hbase w (hmemF w hw)] at this
    exact this
  have hsortN : (List.insertionSort keyLe writes).length = writes.length :=
    List.length_insertionSort keyLe writes
  have hlenF : restF.length = k := by
    rw [hpermF.length_eq, List.length_drop, hsortN, Nat.sub_sub_self hlen]
  have hndsort : ((List.insertionSort keyLe writes).map Prod.snd).Nodup :=
    (((List.perm_insertionSort keyLe writes).map Prod.snd).nodup_iff).mpr hnd
  refine ⟨by rw [hfold], ?_, ?_⟩
  · rw [hfold]
    simp only
    rw [hcand, List.length_map, hlenF]
  · intro f
    rw [hfold]
    simp only
    rw [hcand]
    constructor
    · intro hf
      obtain ⟨w, hw, rfl⟩ := List.mem_map.mp hf
      have hw' : w ∈ (List.insertionSort keyLe writes).drop
          ((List.insertionSort keyLe writes).length - k) := by
        rw [hsortN]
        exact hpermF.subset hw
      have := (sorted_drop_topk _ (List.sorted_insertionSort keyLe writes) hndsort k w).mp hw'
      refine ⟨w, (List.perm_insertionSort keyLe writes).subset this.1, rfl, ?_⟩
      rw [← (List.perm_insertionSort keyLe writes).countP_eq]
      exact this.2
    · rintro ⟨w, hw, rfl, hcnt⟩
      refine List.mem_map_of_mem wfile ?_
      have hw' : w ∈ (List.insertionSort keyLe writes).drop
          ((List.insertionSort keyLe writes).length - k) := by
        refine (sorted_drop_topk _ (List.sorted_insertionSort keyLe writes) hndsort k w).mpr
          ⟨(List.perm_insertionSort keyLe writes).mem_iff.mpr hw, ?_⟩
        rw [(List.perm_insertionSort keyLe writes).countP_eq]
        exact hcnt
      rw [hsortN] at hw'
      exact hpermF.mem_iff.mpr hw'

/-- Witness for C3: bound 1, two writes `f_v1`, `f_v2` from an empty
store; both succeed, one file remains, and it is `f_v2.py`. -/
theorem write_feature_retention_witness :
    (writeFold 1 [("f_v1", (1 : Int)), ("f_v2", 2)] (true, [])).1 = true ∧
    (listVersionCandidates (writeFold 1 [("f_v1", (1 : Int)), ("f_v2", 2)]
      (true, [])).2 "f").length = 1 ∧
    "f_v2.py" ∈ listVersionCandidates (writeFold 1 [("f_v1", (1 : Int)), ("f_v2", 2)]
      (true, [])).2 "f" := by
  have h := write_feature_retention 1 (by decide) "f" [("f_v1", (1 : Int)), ("f_v2", 2)] []
    (by decide) (by decide) (by decide) (by simp) (by decide)
  refine ⟨h.1, h.2.1, ?_⟩
  rw [h.2.2]
  exact ⟨("f_v2", 2), by decide, by decide, by decide⟩
